import Mathlib

/-!
Verification of the character-level text-generation pipeline of the
notebook (Natural Language Processing with RNNs).

The notebook builds a Keras character tokenizer over a corpus
(Tokenizer with char_level true and the default lower true), encodes the
corpus as integer identifiers, windows the first 90 percent of the encoded
sequence into overlapping slices of length n_steps + 1 with stride 1
(dropping the final partial window), shuffles with a bounded buffer,
batches, splits each window into input and target, and finally generates a
character from a prompt by encoding it, running the model, and decoding an
arg-max of the prediction tensor.

Shallow embedding conventions:
- a character is represented by its Unicode code point (a Nat); a Python
  string is a list of code points (for example the corpus of the text
  a-space-b is the list 97, 32, 98);
- Python str.lower is modelled on the ASCII range, which covers every
  character of the corpus the notebook uses;
- model predictions (float32 probabilities in the source) are idealized
  as rationals; only their ordering matters to the claims;
- the TensorFlow dataset pipeline is modelled on lists: window with
  shift 1 and drop_remainder, a bounded-buffer shuffle driven by an
  arbitrary choice function standing for the pseudo-random generator,
  and batch with the default keep-remainder behaviour.
-/

/-- Python str.lower on the ASCII range: code points 65..90 shift to
97..122, everything else is unchanged. The Keras Tokenizer applies this
to every text both when fitting and when encoding (lower defaults to
true). -/
def lowerCh (c : Nat) : Nat :=
  if 65 ≤ c ∧ c ≤ 90 then c + 32 else c

/-- Lowercasing of a whole text, as text.lower() in the source. -/
def lowerText (t : List Nat) : List Nat := t.map lowerCh

/-- One step of the word_counts accumulation in fit_on_texts: increment
the count of character c, appending a fresh entry at the end when c is
new (Python dict insertion order). -/
def bump : List (Nat × Nat) → Nat → List (Nat × Nat)
  | [], c => [(c, 1)]
  | (d, n) :: rest, c =>
      if d = c then (d, n + 1) :: rest else (d, n) :: bump rest c

/-- The word_counts dictionary built by fit_on_texts over the (lowered)
corpus: characters in first-seen order with their occurrence counts. -/
def wordCounts (t : List Nat) : List (Nat × Nat) := t.foldl bump []

/-- Insertion into a list sorted by descending count, placing the new
entry after entries of equal count: together with the fold below this
reproduces the stable descending sort of fit_on_texts
(wcounts.sort by count, reverse). -/
def insertByCount (p : Nat × Nat) : List (Nat × Nat) → List (Nat × Nat)
  | [] => [p]
  | q :: rest => if p.2 ≤ q.2 then q :: insertByCount p rest else p :: q :: rest

/-- Stable sort of the count list by descending count. -/
def sortByCountDesc (l : List (Nat × Nat)) : List (Nat × Nat) :=
  l.foldl (fun acc p => insertByCount p acc) []

/-- fit_on_texts on the single corpus text: the resulting vocabulary as
the list of characters in identifier order; the character at position j
has identifier j + 1 (identifier 0 is reserved, as in word_index). -/
def fitOnTexts (t : List Nat) : List Nat :=
  (sortByCountDesc (wordCounts (lowerText t))).map Prod.fst

/-- Position of character c in the vocabulary list, if present: the
first index whose entry equals c. -/
def lookupIdx (c : Nat) : List Nat → Option Nat
  | [] => none
  | d :: rest => if d = c then some 0 else (lookupIdx c rest).map (· + 1)

/-- The word_index dictionary: character to identifier (1-based), none
for characters absent from the vocabulary (word_index.get). -/
def wordIndex (vocab : List Nat) (c : Nat) : Option Nat :=
  (lookupIdx c vocab).map (· + 1)

/-- Character at a 0-based position of the vocabulary list. -/
def nthChar : List Nat → Nat → Option Nat
  | [], _ => none
  | c :: _, 0 => some c
  | _ :: rest, j + 1 => nthChar rest j

/-- The index_word dictionary: identifier back to character, none for
identifiers out of range (index_word.get); identifier 0 is never
assigned. -/
def indexWord (vocab : List Nat) (i : Nat) : Option Nat :=
  match i with
  | 0 => none
  | j + 1 => nthChar vocab j

/-- texts_to_sequences on a single text: lowercase, then map each
character to its identifier, silently skipping characters absent from
the vocabulary (no oov_token is configured in the source). -/
def textsToSequences (vocab : List Nat) (t : List Nat) : List Nat :=
  (lowerText t).filterMap (wordIndex vocab)

/-- The space-join of sequences_to_texts: the decoded characters are
joined with a single space between consecutive entries (the notebook
itself records the output l-space-a-space-s-space-t for the identifier
sequence of the word last). -/
def joinSpace : List Nat → List Nat
  | [] => []
  | [c] => [c]
  | c :: d :: rest => c :: 32 :: joinSpace (d :: rest)

/-- sequences_to_texts on a single identifier sequence: decode each
identifier via index_word, skipping unknown identifiers, and join the
characters with spaces. -/
def sequencesToTexts (vocab : List Nat) (s : List Nat) : List Nat :=
  joinSpace (s.filterMap (indexWord vocab))

/-- The encoded corpus of the notebook: texts_to_sequences of the corpus
minus one (identifiers are shifted down to start at 0). -/
def encodeCorpus (t : List Nat) : List Nat :=
  (textsToSequences (fitOnTexts t) t).map (· - 1)

/-- train_size = len(encoded) * 90 // 100. -/
def trainSize (n : Nat) : Nat := n * 90 / 100

/-- dataset.window with shift 1 and drop_remainder true (flattened by
the flat_map and per-window batch of the source into plain tensors): all
contiguous slices of length w, in order of their start position. -/
def windows (w : Nat) : List Nat → List (List Nat)
  | [] => []
  | x :: rest =>
      if rest.length + 1 < w then []
      else (x :: rest).take w :: windows w rest

/-- The input and target halves of one window, as the dataset map
(windows without the last position, windows without the first). -/
def splitWindow (win : List Nat) : List Nat × List Nat :=
  (win.dropLast, win.drop 1)

/-- Core loop of the bounded-buffer shuffle: emit the element of the
buffer chosen by the pseudo-random choice function (reduced mod the
buffer size), refill the emitted slot from the remaining input while any
remains, and drain the buffer afterwards. The fuel argument makes the
recursion structural; shuffle below supplies enough fuel for every
element to be emitted. An empty buffer passes the remaining input
through (reachable only with buffer size 0, which the source, using
10000, never does). -/
def drain {α : Type} (choice : Nat → Nat) : Nat → Nat → List α → List α → List α
  | 0, _, _, rest => rest
  | fuel + 1, k, buf, rest =>
      match buf, rest with
      | [], rest => rest
      | b :: bs, [] =>
          let i := choice k % (b :: bs).length
          (b :: bs).getD i b :: drain choice fuel (k + 1) ((b :: bs).eraseIdx i) []
      | b :: bs, y :: ys =>
          let i := choice k % (b :: bs).length
          (b :: bs).getD i b :: drain choice fuel (k + 1) ((b :: bs).set i y) ys

/-- dataset.shuffle with buffer size S: fill the buffer with the first S
elements and drain, with the choice function standing for the
pseudo-random generator. -/
def shuffle {α : Type} (S : Nat) (choice : Nat → Nat) (xs : List α) : List α :=
  drain choice xs.length 0 (xs.take S) (xs.drop S)

/-- Fuelled grouping into batches of B (the default keep-remainder
batching of dataset.batch); batch below supplies enough fuel. -/
def batchF {α : Type} (B : Nat) : Nat → List α → List (List α)
  | _, [] => []
  | 0, _ :: _ => []
  | fuel + 1, x :: rest => (x :: rest.take (B - 1)) :: batchF B fuel (rest.drop (B - 1))

/-- dataset.batch with batch size B. -/
def batch {α : Type} (B : Nat) (xs : List α) : List (List α) := batchF B xs.length xs

/-- The windows fed to training: the window pipeline applied to the
first train_size elements of the encoded corpus
(from_tensor_slices of encoded up to train_size, then window). -/
def trainWindows (encoded : List Nat) (L : Nat) : List (List Nat) :=
  windows (L + 1) (encoded.take (trainSize encoded.length))

/-- One epoch of training batches: shuffle then batch over the window
stream (the subsequent input and target split and the one-hot map do not
move elements between windows). -/
def trainBatches (encoded : List Nat) (L S B : Nat) (choice : Nat → Nat) :
    List (List (List Nat)) :=
  batch B (shuffle S choice (trainWindows encoded L))

/-- preprocess of the generation cell on a single prompt:
texts_to_sequences minus one. The one-hot expansion that follows is a
bijective re-coding consumed directly by the model, so the identifier
sequence stands for its one-hot rows here. -/
def preprocess (vocab : List Nat) (t : List Nat) : List Nat :=
  (textsToSequences vocab t).map (· - 1)

/-- Tail of np.argmax over a vector: current best value, its index, and
the index of the next element; ties keep the earliest index, as numpy
does. -/
def npArgmaxAux : List ℚ → ℚ → Nat → Nat → Nat
  | [], _, best, _ => best
  | x :: rest, bv, best, i =>
      if bv < x then npArgmaxAux rest x i (i + 1) else npArgmaxAux rest bv best (i + 1)

/-- np.argmax over a vector (0 on the empty vector, where numpy instead
raises; the pipeline only reaches it on nonempty vectors). -/
def npArgmax : List ℚ → Nat
  | [] => 0
  | x :: rest => npArgmaxAux rest x 0 1

/-- np.argmax(P, axis=1) on the single batch element: P has one row per
sequence position and one column per vocabulary category, and axis 1 is
the row (position) axis, so the result has one entry per category, the
position index at which that category's score is maximal. -/
def argmaxAxis1 (P : List (List ℚ)) : List Nat :=
  match P with
  | [] => []
  | r :: _ => (List.range r.length).map (fun v => npArgmax (P.map (fun row => row.getD v 0)))

/-- The decoding tail of the generation cell:
sequences_to_texts(Y_pred + 1)[0][-1], with Y_pred = np.argmax(P, axis=1)
on the prediction tensor P; none when the decoded string is empty (the
source would raise there). -/
def genChar (vocab : List Nat) (P : List (List ℚ)) : Option Nat :=
  (sequencesToTexts vocab ((argmaxAxis1 P).map (· + 1))).getLast?

/-- The whole generation call: preprocess the prompt, run the model (an
abstract function from the encoded prompt to the prediction rows), and
decode. -/
def generate (vocab : List Nat) (model : List Nat → List (List ℚ)) (prompt : List Nat) :
    Option Nat :=
  genChar vocab (model (preprocess vocab prompt))

/-- The generation step as the specification words it, for comparison
with genChar: take the arg-max over the V vocabulary categories at the
last sequence position and decode it via the inverse vocabulary mapping
(category v carries identifier v + 1). -/
def specGenChar (vocab : List Nat) (P : List (List ℚ)) : Option Nat :=
  (P.getLast?).bind (fun row => indexWord vocab (npArgmax row + 1))

example : fitOnTexts [97, 32, 98] = [97, 32, 98] := by decide
example : textsToSequences (fitOnTexts [97, 32, 98]) [97, 32, 98] = [1, 2, 3] := by decide
example :
    sequencesToTexts (fitOnTexts [97, 32, 98]) [1, 2, 3] = [97, 32, 32, 32, 98] := by decide
example : encodeCorpus [97, 98, 99, 97, 98, 99] = [0, 1, 2, 0, 1, 2] := by decide
example : (windows 3 (encodeCorpus [97, 98, 99, 97, 98, 99])).length = 4 := by decide
example : genChar (fitOnTexts [97, 98]) [[(0 : ℚ), 1]] = some 97 := by decide
example : specGenChar (fitOnTexts [97, 98]) [[(0 : ℚ), 1]] = some 98 := by decide
example : shuffle 2 (fun k => k + 1) [10, 20, 30, 40] = [20, 10, 30, 40] := by decide
example : batch 2 [1, 2, 3, 4, 5] = [[1, 2], [3, 4], [5]] := by decide

/-! Basic facts about lowercasing and vocabulary lookup. -/

theorem lowerCh_idem (c : Nat) : lowerCh (lowerCh c) = lowerCh c := by
  unfold lowerCh
  by_cases h : 65 ≤ c ∧ c ≤ 90
  · have h2 : ¬(65 ≤ c + 32 ∧ c + 32 ≤ 90) := by omega
    simp [h, h2]
    omega
  · simp [h]

theorem lowerCh_space : lowerCh 32 = 32 := by decide

theorem lowerText_lowerText (t : List Nat) : lowerText (lowerText t) = lowerText t := by
  unfold lowerText
  rw [List.map_map]
  exact List.map_congr_left (fun c _ => lowerCh_idem c)

theorem mem_lowerText_fixed {c : Nat} {t : List Nat} (h : c ∈ lowerText t) :
    lowerCh c = c := by
  rcases List.mem_map.mp h with ⟨d, _, rfl⟩
  exact lowerCh_idem d

theorem lookupIdx_nthChar {c : Nat} {l : List Nat} {j : Nat}
    (h : lookupIdx c l = some j) : nthChar l j = some c := by
  induction l generalizing j with
  | nil => simp [lookupIdx] at h
  | cons d rest ih =>
    by_cases hd : d = c
    · simp [lookupIdx, hd] at h
      subst h
      simp [nthChar, hd]
    · simp [lookupIdx, hd] at h
      rcases h with ⟨j0, hj0, rfl⟩
      simpa [nthChar] using ih hj0

theorem lookupIdx_eq_none {c : Nat} {l : List Nat} :
    lookupIdx c l = none ↔ c ∉ l := by
  induction l with
  | nil => simp [lookupIdx]
  | cons d rest ih =>
    by_cases hd : d = c
    · simp [lookupIdx, hd]
    · simp [lookupIdx, hd, ih, Ne.symm hd]

theorem lookupIdx_lt_length {c : Nat} {l : List Nat} {j : Nat}
    (h : lookupIdx c l = some j) : j < l.length := by
  induction l generalizing j with
  | nil => simp [lookupIdx] at h
  | cons d rest ih =>
    by_cases hd : d = c
    · simp [lookupIdx, hd] at h
      simp only [List.length_cons]
      omega
    · simp [lookupIdx, hd] at h
      rcases h with ⟨j0, hj0, rfl⟩
      have := ih hj0
      simp only [List.length_cons]
      omega

theorem nthChar_mem {l : List Nat} {j : Nat} {c : Nat}
    (h : nthChar l j = some c) : c ∈ l := by
  induction l generalizing j with
  | nil => simp [nthChar] at h
  | cons d rest ih =>
    cases j with
    | zero => simp [nthChar] at h; simp [h]
    | succ j0 => simp [nthChar] at h; exact List.mem_cons_of_mem _ (ih h)

theorem nthChar_of_lt {l : List Nat} {j : Nat} (h : j < l.length) :
    ∃ c, nthChar l j = some c := by
  induction l generalizing j with
  | nil => simp at h
  | cons d rest ih =>
    cases j with
    | zero => exact ⟨d, rfl⟩
    | succ j0 => exact ih (by simpa using h)

theorem nthChar_lookupIdx {l : List Nat} {j : Nat} {c : Nat}
    (hnd : l.Nodup) (h : nthChar l j = some c) : lookupIdx c l = some j := by
  induction l generalizing j with
  | nil => simp [nthChar] at h
  | cons d rest ih =>
    rcases List.nodup_cons.mp hnd with ⟨hd_not, hrest⟩
    cases j with
    | zero =>
      simp [nthChar] at h
      simp [lookupIdx, h]
    | succ j0 =>
      simp [nthChar] at h
      have hc : c ∈ rest := nthChar_mem h
      have hdc : d ≠ c := fun hdc => hd_not (hdc ▸ hc)
      simp [lookupIdx, hdc, ih hrest h]

theorem wordIndex_indexWord {vocab : List Nat} {c : Nat} {i : Nat}
    (h : wordIndex vocab c = some i) : indexWord vocab i = some c := by
  unfold wordIndex at h
  rcases Option.map_eq_some'.mp h with ⟨j, hj, rfl⟩
  simpa [indexWord] using lookupIdx_nthChar hj

theorem wordIndex_eq_none {vocab : List Nat} {c : Nat} (h : c ∉ vocab) :
    wordIndex vocab c = none := by
  unfold wordIndex
  rw [lookupIdx_eq_none.mpr h]
  rfl

theorem mem_of_wordIndex_some {vocab : List Nat} {c : Nat} {i : Nat}
    (h : wordIndex vocab c = some i) : c ∈ vocab := by
  by_contra hmem
  rw [wordIndex_eq_none hmem] at h
  exact Option.noConfusion h

theorem textsToSequences_nil (vocab : List Nat) : textsToSequences vocab [] = [] := rfl

theorem textsToSequences_cons_some {vocab : List Nat} {x : Nat} {i : Nat} (u : List Nat)
    (h : wordIndex vocab (lowerCh x) = some i) :
    textsToSequences vocab (x :: u) = i :: textsToSequences vocab u := by
  simp [textsToSequences, lowerText, List.filterMap_cons, h]

theorem textsToSequences_cons_none {vocab : List Nat} {x : Nat} (u : List Nat)
    (h : wordIndex vocab (lowerCh x) = none) :
    textsToSequences vocab (x :: u) = textsToSequences vocab u := by
  simp [textsToSequences, lowerText, List.filterMap_cons, h]

/-! Structure of the vocabulary built by fit_on_texts. -/

theorem insertByCount_perm (p : Nat × Nat) (l : List (Nat × Nat)) :
    (insertByCount p l).Perm (p :: l) := by
  induction l with
  | nil => exact List.Perm.refl _
  | cons q rest ih =>
    unfold insertByCount
    split
    · exact ((ih.cons q).trans (List.Perm.swap p q rest))
    · exact List.Perm.refl _

theorem foldl_insertByCount_perm (l acc : List (Nat × Nat)) :
    (l.foldl (fun a p => insertByCount p a) acc).Perm (acc ++ l) := by
  induction l generalizing acc with
  | nil => simp
  | cons p rest ih =>
    have h1 := ih (insertByCount p acc)
    have h2 : (insertByCount p acc ++ rest).Perm ((p :: acc) ++ rest) :=
      (insertByCount_perm p acc).append_right rest
    have h3 : ((p :: acc) ++ rest).Perm (acc ++ p :: rest) := List.perm_middle.symm
    simpa using (h1.trans h2).trans h3

theorem sortByCountDesc_perm (l : List (Nat × Nat)) :
    (sortByCountDesc l).Perm l := by
  simpa [sortByCountDesc] using foldl_insertByCount_perm l []

theorem mem_bump_keys {a c : Nat} {l : List (Nat × Nat)} :
    a ∈ (bump l c).map Prod.fst ↔ a ∈ l.map Prod.fst ∨ a = c := by
  induction l with
  | nil => simp [bump]
  | cons q rest ih =>
    rcases q with ⟨d, n⟩
    by_cases hd : d = c
    · subst hd
      simp [bump]
      tauto
    · simp [bump, hd, ih]
      tauto

theorem nodup_bump_keys {c : Nat} {l : List (Nat × Nat)}
    (h : (l.map Prod.fst).Nodup) : ((bump l c).map Prod.fst).Nodup := by
  induction l with
  | nil => simp [bump]
  | cons q rest ih =>
    rcases q with ⟨d, n⟩
    simp only [List.map_cons, List.nodup_cons] at h
    by_cases hd : d = c
    · subst hd
      simpa [bump, List.nodup_cons] using h
    · simp only [bump, if_neg hd, List.map_cons, List.nodup_cons]
      refine ⟨?_, ih h.2⟩
      rw [mem_bump_keys]
      rintro (hmem | rfl)
      · exact h.1 hmem
      · exact hd rfl

theorem mem_foldl_bump_keys {a : Nat} (t : List Nat) (acc : List (Nat × Nat)) :
    a ∈ (t.foldl bump acc).map Prod.fst ↔ a ∈ acc.map Prod.fst ∨ a ∈ t := by
  induction t generalizing acc with
  | nil => simp
  | cons c rest ih =>
    rw [List.foldl_cons, ih, mem_bump_keys]
    simp
    tauto

theorem nodup_foldl_bump_keys (t : List Nat) (acc : List (Nat × Nat))
    (h : (acc.map Prod.fst).Nodup) : ((t.foldl bump acc).map Prod.fst).Nodup := by
  induction t generalizing acc with
  | nil => exact h
  | cons c rest ih => exact ih _ (nodup_bump_keys h)

theorem mem_wordCounts_keys {a : Nat} (t : List Nat) :
    a ∈ (wordCounts t).map Prod.fst ↔ a ∈ t := by
  simpa [wordCounts] using mem_foldl_bump_keys t []

theorem nodup_wordCounts_keys (t : List Nat) :
    ((wordCounts t).map Prod.fst).Nodup := by
  simpa [wordCounts] using nodup_foldl_bump_keys t [] (by simp)

theorem fitOnTexts_perm_keys (t : List Nat) :
    (fitOnTexts t).Perm ((wordCounts (lowerText t)).map Prod.fst) := by
  exact (sortByCountDesc_perm (wordCounts (lowerText t))).map Prod.fst

theorem mem_fitOnTexts {c : Nat} {t : List Nat} :
    c ∈ fitOnTexts t ↔ c ∈ lowerText t := by
  rw [(fitOnTexts_perm_keys t).mem_iff]
  exact mem_wordCounts_keys (lowerText t)

theorem nodup_fitOnTexts (t : List Nat) : (fitOnTexts t).Nodup := by
  rw [(fitOnTexts_perm_keys t).nodup_iff]
  exact nodup_wordCounts_keys (lowerText t)

theorem length_fitOnTexts (t : List Nat) :
    (fitOnTexts t).length = (lowerText t).dedup.length := by
  have hperm : (fitOnTexts t).Perm (lowerText t).dedup := by
    rw [List.perm_ext_iff_of_nodup (nodup_fitOnTexts t) (List.nodup_dedup _)]
    intro a
    rw [mem_fitOnTexts, List.mem_dedup]
  exact hperm.length_eq

theorem fitOnTexts_lower_fixed {c : Nat} {t : List Nat} (h : c ∈ fitOnTexts t) :
    lowerCh c = c :=
  mem_lowerText_fixed (mem_fitOnTexts.mp h)

/-! The windowing pipeline: counting, slices, batching, shuffling. -/

theorem windows_length (w : Nat) (xs : List Nat) :
    (windows (w + 1) xs).length = xs.length - w := by
  induction xs with
  | nil => simp [windows]
  | cons x rest ih =>
    unfold windows
    split
    · simp only [List.length_nil, List.length_cons]
      omega
    · next h =>
      simp only [List.length_cons, ih]
      omega

theorem mem_windows_slice {w : Nat} {xs win : List Nat}
    (h : win ∈ windows w xs) :
    ∃ i, i + w ≤ xs.length ∧ win = (xs.drop i).take w := by
  induction xs generalizing win with
  | nil => simp [windows] at h
  | cons x rest ih =>
    unfold windows at h
    split at h
    · simp at h
    · next hlen =>
      rcases List.mem_cons.mp h with rfl | hmem
      · exact ⟨0, by simp only [List.length_cons]; omega, by simp⟩
      · rcases ih hmem with ⟨i, hi, rfl⟩
        refine ⟨i + 1, ?_, ?_⟩
        · simp only [List.length_cons]
          omega
        · simp [List.drop_succ_cons]

theorem windows_length_mem {w : Nat} {xs win : List Nat}
    (h : win ∈ windows w xs) : win.length = w := by
  rcases mem_windows_slice h with ⟨i, hi, rfl⟩
  simp only [List.length_take, List.length_drop]
  omega

theorem batchF_flatten {α : Type} (B : Nat) (fuel : Nat) (xs : List α)
    (h : xs.length ≤ fuel) : (batchF B fuel xs).flatten = xs := by
  induction fuel generalizing xs with
  | zero =>
    cases xs with
    | nil => rfl
    | cons x rest => simp at h
  | succ fuel ih =>
    cases xs with
    | nil => rfl
    | cons x rest =>
      simp only [batchF, List.flatten_cons]
      rw [ih]
      · simp [List.take_append_drop]
      · simp only [List.length_drop, List.length_cons] at h ⊢
        omega

theorem batch_flatten {α : Type} (B : Nat) (xs : List α) :
    (batch B xs).flatten = xs :=
  batchF_flatten B xs.length xs (Nat.le_refl _)

theorem getD_cons_eraseIdx_perm {α : Type} (l : List α) (d : α) (i : Nat)
    (h : i < l.length) : (l.getD i d :: l.eraseIdx i).Perm l := by
  induction l generalizing i with
  | nil => simp at h
  | cons x rest ih =>
    cases i with
    | zero => simp
    | succ i0 =>
      have hi0 : i0 < rest.length := by
        simp only [List.length_cons] at h
        omega
      simp only [List.getD_cons_succ, List.eraseIdx_cons_succ]
      exact (List.Perm.swap x _ _).trans ((ih i0 hi0).cons x)

theorem set_perm_cons_eraseIdx {α : Type} (l : List α) (i : Nat) (y : α)
    (h : i < l.length) : (l.set i y).Perm (y :: l.eraseIdx i) := by
  induction l generalizing i with
  | nil => simp at h
  | cons x rest ih =>
    cases i with
    | zero => simp
    | succ i0 =>
      have hi0 : i0 < rest.length := by
        simp only [List.length_cons] at h
        omega
      simp only [List.set_cons_succ, List.eraseIdx_cons_succ]
      exact ((ih i0 hi0).cons x).trans (List.Perm.swap y x _)

theorem drain_perm {α : Type} (choice : Nat → Nat) (fuel : Nat) :
    ∀ (k : Nat) (buf rest : List α), buf.length + rest.length ≤ fuel →
      (drain choice fuel k buf rest).Perm (buf ++ rest) := by
  induction fuel with
  | zero =>
    intro k buf rest h
    have hb : buf = [] := by
      cases buf with
      | nil => rfl
      | cons b bs => simp at h
    subst hb
    simp [drain]
  | succ fuel ih =>
    intro k buf rest h
    match buf, rest with
    | [], rest => simp [drain]
    | b :: bs, [] =>
      simp only [drain]
      have hlt : choice k % (b :: bs).length < (b :: bs).length :=
        Nat.mod_lt _ (by simp)
      have hfuel : ((b :: bs).eraseIdx (choice k % (b :: bs).length)).length +
          ([] : List α).length ≤ fuel := by
        rw [List.length_eraseIdx, if_pos hlt]
        simp only [List.length_cons, List.length_nil] at h ⊢
        omega
      have hih := ih (k + 1) ((b :: bs).eraseIdx (choice k % (b :: bs).length)) [] hfuel
      rw [List.append_nil] at hih ⊢
      exact (hih.cons _).trans (getD_cons_eraseIdx_perm (b :: bs) b _ hlt)
    | b :: bs, y :: ys =>
      simp only [drain]
      have hlt : choice k % (b :: bs).length < (b :: bs).length :=
        Nat.mod_lt _ (by simp)
      have hfuel : ((b :: bs).set (choice k % (b :: bs).length) y).length +
          ys.length ≤ fuel := by
        simp only [List.length_set, List.length_cons] at h ⊢
        omega
      have hih := ih (k + 1) ((b :: bs).set (choice k % (b :: bs).length) y) ys hfuel
      have hset := set_perm_cons_eraseIdx (b :: bs) (choice k % (b :: bs).length) y hlt
      have h1 := hih.trans (hset.append_right ys)
      have h2 : (y :: ((b :: bs).eraseIdx (choice k % (b :: bs).length) ++ ys)).Perm
          ((b :: bs).eraseIdx (choice k % (b :: bs).length) ++ y :: ys) :=
        List.perm_middle.symm
      exact ((h1.cons _).trans (h2.cons _)).trans
        ((getD_cons_eraseIdx_perm (b :: bs) b _ hlt).append_right (y :: ys))

theorem shuffle_perm {α : Type} (S : Nat) (choice : Nat → Nat) (xs : List α) :
    (shuffle S choice xs).Perm xs := by
  unfold shuffle
  have hlen : (xs.take S).length + (xs.drop S).length ≤ xs.length := by
    simp only [List.length_take, List.length_drop]
    omega
  simpa [List.take_append_drop] using
    drain_perm choice xs.length 0 (xs.take S) (xs.drop S) hlen

/-! Decode and re-encode: the round trip through the vocabulary. -/

theorem joinSpace_cons_cons (c d : Nat) (rest : List Nat) :
    joinSpace (c :: d :: rest) = c :: 32 :: joinSpace (d :: rest) := rfl

theorem roundtrip_aux (vocab : List Nat) (h32 : 32 ∉ vocab) :
    ∀ s : List Nat, (∀ i ∈ s, ∃ c, wordIndex vocab c = some i ∧ lowerCh c = c) →
      textsToSequences vocab (sequencesToTexts vocab s) = s := by
  intro s
  induction s with
  | nil => intro _; rfl
  | cons i s2 ih =>
    intro h
    obtain ⟨c, hc, hlow⟩ := h i (List.mem_cons_self i s2)
    have hiw : indexWord vocab i = some c := wordIndex_indexWord hc
    have hlook : wordIndex vocab (lowerCh c) = some i := by rw [hlow]; exact hc
    cases s2 with
    | nil =>
      have hdec : sequencesToTexts vocab [i] = [c] := by
        simp [sequencesToTexts, List.filterMap_cons, hiw, joinSpace]
      rw [hdec, textsToSequences_cons_some [] hlook, textsToSequences_nil]
    | cons i2 s3 =>
      obtain ⟨c2, hc2, _⟩ := h i2 (List.mem_cons_of_mem i (List.mem_cons_self i2 s3))
      have hiw2 : indexWord vocab i2 = some c2 := wordIndex_indexWord hc2
      have hdec : sequencesToTexts vocab (i :: i2 :: s3) =
          c :: 32 :: sequencesToTexts vocab (i2 :: s3) := by
        simp only [sequencesToTexts, List.filterMap_cons, hiw, hiw2]
        exact joinSpace_cons_cons c c2 _
      have hspace : wordIndex vocab (lowerCh 32) = none := by
        rw [lowerCh_space]
        exact wordIndex_eq_none h32
      rw [hdec, textsToSequences_cons_some _ hlook, textsToSequences_cons_none _ hspace,
        ih (fun j hj => h j (List.mem_cons_of_mem i hj))]

theorem encoded_ids_good (vocab : List Nat) (t : List Nat) :
    ∀ i ∈ textsToSequences vocab t,
      ∃ c, wordIndex vocab c = some i ∧ lowerCh c = c := by
  intro i hi
  unfold textsToSequences at hi
  rcases List.mem_filterMap.mp hi with ⟨x, hx, hxi⟩
  exact ⟨x, hxi, mem_lowerText_fixed hx⟩

/-! Claim theorems. -/

/-- C1 counterexample: for the corpus a-space-b, encode gives [1, 2, 3],
but sequences_to_texts joins the decoded characters with spaces, so
re-encoding yields [1, 2, 2, 2, 3]; the round trip does not reproduce
the original integer sequence. -/
theorem c1_counterexample :
    textsToSequences (fitOnTexts [97, 32, 98])
        (sequencesToTexts (fitOnTexts [97, 32, 98])
          (textsToSequences (fitOnTexts [97, 32, 98]) [97, 32, 98])) ≠
      textsToSequences (fitOnTexts [97, 32, 98]) [97, 32, 98] := by
  decide

/-- C1 (amended): encode-decode-encode reproduces the original integer
sequence for every corpus whose vocabulary does not contain the space
character; the decoder joins characters with spaces, and when space is
not in the vocabulary the inserted separators are silently dropped by
the re-encoding, so the round trip is exact. -/
theorem c1_roundtrip_of_no_space (t : List Nat) (h : 32 ∉ fitOnTexts t) :
    textsToSequences (fitOnTexts t)
        (sequencesToTexts (fitOnTexts t) (textsToSequences (fitOnTexts t) t)) =
      textsToSequences (fitOnTexts t) t :=
  roundtrip_aux (fitOnTexts t) h _ (encoded_ids_good (fitOnTexts t) t)

/-- C1 witness: the space-free corpus a-b-c-a satisfies the amended
round trip. -/
theorem c1_roundtrip_witness :
    32 ∉ fitOnTexts [97, 98, 99, 97] ∧
      textsToSequences (fitOnTexts [97, 98, 99, 97])
          (sequencesToTexts (fitOnTexts [97, 98, 99, 97])
            (textsToSequences (fitOnTexts [97, 98, 99, 97]) [97, 98, 99, 97])) =
        textsToSequences (fitOnTexts [97, 98, 99, 97]) [97, 98, 99, 97] :=
  ⟨by decide, c1_roundtrip_of_no_space [97, 98, 99, 97] (by decide)⟩

/-- C2: at the concrete one-position prediction [[0, 1]] over the
two-character vocabulary of the corpus a-b, the generation cell
(np.argmax over axis 1, the position axis) returns the character a,
while the generator described by the claim and the specification
(arg-max over the vocabulary categories at the last position) returns b:
the code arg-maxes across the wrong dimension. -/
theorem c2_argmax_axis_divergence :
    genChar (fitOnTexts [97, 98]) [[(0 : ℚ), 1]] = some 97 ∧
      specGenChar (fitOnTexts [97, 98]) [[(0 : ℚ), 1]] = some 98 ∧
      genChar (fitOnTexts [97, 98]) [[(0 : ℚ), 1]] ≠
        specGenChar (fitOnTexts [97, 98]) [[(0 : ℚ), 1]] := by
  refine ⟨by decide, by decide, by decide⟩

/-- C3: the window pipeline with window length L + 1 and stride 1,
dropping the final partial window, produces exactly N - L full windows
for an encoded corpus of length N; in particular the encoded corpus
a-b-c-a-b-c with window length 3 yields exactly 4 windows. -/
theorem c3_window_count :
    (∀ (xs : List Nat) (L : Nat), (windows (L + 1) xs).length = xs.length - L) ∧
      (windows 3 (encodeCorpus [97, 98, 99, 97, 98, 99])).length = 4 :=
  ⟨fun xs L => windows_length L xs, by decide⟩

/-- C4: every window produced by the pipeline is a contiguous corpus
slice of length L + 1 starting at some position i; the input half is
positions 0 to L - 1 of that slice and the target half is positions 1 to
L, the input shifted left by one inside the same slice. -/
theorem c4_split_window (xs : List Nat) (L : Nat) (win : List Nat)
    (h : win ∈ windows (L + 1) xs) :
    ∃ i, i + (L + 1) ≤ xs.length ∧ win = (xs.drop i).take (L + 1) ∧
      (splitWindow win).1 = (xs.drop i).take L ∧
      (splitWindow win).2 = (xs.drop (i + 1)).take L := by
  rcases mem_windows_slice h with ⟨i, hi, rfl⟩
  have hdlen : (xs.drop i).length = xs.length - i := List.length_drop i xs
  refine ⟨i, hi, rfl, ?_, ?_⟩
  · show ((xs.drop i).take (L + 1)).dropLast = (xs.drop i).take L
    rw [List.dropLast_eq_take, List.length_take, List.take_take]
    have harg : ((L + 1) ⊓ (xs.drop i).length - 1) ⊓ (L + 1) = L := by
      rw [hdlen]
      omega
    rw [harg]
  · show ((xs.drop i).take (L + 1)).drop 1 = (xs.drop (i + 1)).take L
    rw [List.drop_take, List.drop_drop]
    norm_num

/-- C4 witness: the first window of the corpus 5-6-7-8 with L = 2. -/
theorem c4_split_window_witness :
    [5, 6, 7] ∈ windows 3 [5, 6, 7, 8] ∧
      ∃ i, i + 3 ≤ ([5, 6, 7, 8] : List Nat).length ∧
        [5, 6, 7] = (([5, 6, 7, 8] : List Nat).drop i).take 3 ∧
        (splitWindow [5, 6, 7]).1 = (([5, 6, 7, 8] : List Nat).drop i).take 2 ∧
        (splitWindow [5, 6, 7]).2 = (([5, 6, 7, 8] : List Nat).drop (i + 1)).take 2 :=
  ⟨by decide, c4_split_window [5, 6, 7, 8] 2 [5, 6, 7] (by decide)⟩

/-- C5 counterexample: for the corpus consisting of an uppercase A
followed by a lowercase a (code points 65 and 97), the tokenizer
lowercases before counting, so only one identifier is created although
the corpus contains two distinct characters. -/
theorem c5_counterexample :
    (fitOnTexts [65, 97]).length = 1 ∧
      ([65, 97] : List Nat).dedup.length = 2 ∧
      (fitOnTexts [65, 97]).length ≠ ([65, 97] : List Nat).dedup.length := by
  refine ⟨by decide, by decide, by decide⟩

/-- C5 (amended): the vocabulary assigns exactly one identifier per
distinct character of the lowercased corpus (uppercase and lowercase
variants share one identifier), every lowercased-corpus character is in
the vocabulary and conversely, and the identifiers in use are exactly
the dense contiguous range 1 to the vocabulary size. -/
theorem c5_vocab_dense (t : List Nat) :
    (fitOnTexts t).Nodup ∧
      (fitOnTexts t).length = (lowerText t).dedup.length ∧
      (∀ c, c ∈ fitOnTexts t ↔ c ∈ lowerText t) ∧
      (∀ i, (∃ c, wordIndex (fitOnTexts t) c = some i) ↔
        1 ≤ i ∧ i ≤ (fitOnTexts t).length) := by
  refine ⟨nodup_fitOnTexts t, length_fitOnTexts t, fun c => mem_fitOnTexts,
    fun i => ⟨?_, ?_⟩⟩
  · rintro ⟨c, hc⟩
    unfold wordIndex at hc
    rcases Option.map_eq_some'.mp hc with ⟨j, hj, rfl⟩
    have := lookupIdx_lt_length hj
    omega
  · rintro ⟨h1, h2⟩
    cases i with
    | zero => omega
    | succ j =>
      have hj : j < (fitOnTexts t).length := by omega
      obtain ⟨c, hc⟩ := nthChar_of_lt hj
      refine ⟨c, ?_⟩
      unfold wordIndex
      rw [nthChar_lookupIdx (nodup_fitOnTexts t) hc]
      rfl

/-- C6 counterexample: the character z (code point 122) is absent from
the vocabulary of the corpus a-b, yet generation on the prompt a-z does
not fail: the encoder silently drops the unknown character and the call
returns the character a. -/
theorem c6_counterexample :
    122 ∉ fitOnTexts [97, 98] ∧
      generate (fitOnTexts [97, 98]) (fun _ => [[(0 : ℚ), 1]]) [97, 122] =
        some 97 := by
  refine ⟨by decide, by decide⟩

/-- C6 (amended): the generator raises no distinct error in either case.
A prompt character absent from the vocabulary is silently dropped by the
encoder and a character is still returned when in-vocabulary characters
remain (see the counterexample); only when the encoded prompt is empty
(empty prompt, or all characters unknown) does the call fail to produce
a character, through the downstream empty arg-max, not through a
distinct reported error. -/
theorem c6_empty_encoding_no_char (vocab : List Nat)
    (model : List Nat → List (List ℚ)) (prompt : List Nat)
    (henc : textsToSequences vocab prompt = []) (hmodel : model [] = []) :
    generate vocab model prompt = none := by
  unfold generate preprocess
  rw [henc]
  simp only [List.map_nil, hmodel]
  rfl

/-- C6 witness: the empty prompt over the vocabulary of the corpus a,
with a model producing one prediction row per input position. -/
theorem c6_empty_encoding_witness :
    textsToSequences (fitOnTexts [97]) [] = [] ∧
      generate (fitOnTexts [97]) (fun _ => ([] : List (List ℚ))) [] = none :=
  ⟨rfl, c6_empty_encoding_no_char (fitOnTexts [97]) (fun _ => []) [] rfl rfl⟩

/-- C7 counterexample: vocabulary construction on the empty corpus does
not raise; it returns the degenerate empty vocabulary. -/
theorem c7_counterexample : fitOnTexts [] = [] ∧ (fitOnTexts []).length = 0 := by
  refine ⟨by decide, by decide⟩

/-- C7 (amended): fit_on_texts on the empty corpus succeeds and produces
an empty vocabulary assigning no identifier to any character, rather
than raising an error. -/
theorem c7_empty_corpus_vocab :
    fitOnTexts [] = [] ∧ ∀ c : Nat, wordIndex (fitOnTexts []) c = none :=
  ⟨rfl, fun _ => rfl⟩

/-- Flattening one epoch of batches recovers the shuffled window stream,
a permutation of the full window list. -/
theorem trainBatches_flatten_perm (encoded : List Nat) (L S B : Nat)
    (choice : Nat → Nat) :
    ((trainBatches encoded L S B choice).flatten).Perm (trainWindows encoded L) := by
  unfold trainBatches
  rw [batch_flatten]
  exact shuffle_perm S choice (trainWindows encoded L)

/-- C8: for every epoch, the multiset of windows emitted across all
batches equals the multiset of all full windows of the encoded training
sequence; the bounded-buffer shuffle (driven by any choice function)
and the batching only reorder and regroup them. -/
theorem c8_epoch_multiset (encoded : List Nat) (L S B : Nat) (choice : Nat → Nat) :
    ((trainBatches encoded L S B choice).flatten).Perm (trainWindows encoded L) :=
  trainBatches_flatten_perm encoded L S B choice

/-- C10: every window of every training batch is a contiguous slice of
the first train_size elements of the encoded corpus; in particular every
element of every such window lies in the initial 90 percent and no
element of the final 10 percent is ever presented. -/
theorem c10_train_slice (encoded : List Nat) (L S B : Nat) (choice : Nat → Nat)
    (b : List (List Nat)) (win : List Nat)
    (hb : b ∈ trainBatches encoded L S B choice) (hwin : win ∈ b) :
    ∃ i, i + (L + 1) ≤ trainSize encoded.length ∧
      win = (encoded.drop i).take (L + 1) ∧
      ∀ x ∈ win, x ∈ encoded.take (trainSize encoded.length) := by
  have hflat : win ∈ (trainBatches encoded L S B choice).flatten :=
    List.mem_flatten.mpr ⟨b, hb, hwin⟩
  have hmem : win ∈ trainWindows encoded L :=
    (trainBatches_flatten_perm encoded L S B choice).mem_iff.mp hflat
  unfold trainWindows at hmem
  rcases mem_windows_slice hmem with ⟨i, hi, rfl⟩
  have hts : trainSize encoded.length ≤ encoded.length := by
    unfold trainSize
    omega
  rw [List.length_take] at hi
  have hibound : i + (L + 1) ≤ trainSize encoded.length := by omega
  refine ⟨i, hibound, ?_, ?_⟩
  · rw [List.drop_take, List.take_take]
    have harg : (L + 1) ⊓ (trainSize encoded.length - i) = L + 1 := by omega
    rw [harg]
  · exact fun x hx => List.mem_of_mem_drop (List.mem_of_mem_take hx)

/-- C10 witness: a concrete pipeline over the 10-element corpus 0..9,
whose train split is its first 9 elements. -/
theorem c10_train_slice_witness :
    [[0, 1], [1, 2]] ∈ trainBatches [0, 1, 2, 3, 4, 5, 6, 7, 8, 9] 1 3 2 (fun k => k) ∧
      [0, 1] ∈ ([[0, 1], [1, 2]] : List (List Nat)) ∧
      ∃ i, i + 2 ≤ trainSize ([0, 1, 2, 3, 4, 5, 6, 7, 8, 9] : List Nat).length ∧
        [0, 1] = (([0, 1, 2, 3, 4, 5, 6, 7, 8, 9] : List Nat).drop i).take 2 ∧
        ∀ x ∈ ([0, 1] : List Nat),
          x ∈ ([0, 1, 2, 3, 4, 5, 6, 7, 8, 9] : List Nat).take
            (trainSize ([0, 1, 2, 3, 4, 5, 6, 7, 8, 9] : List Nat).length) :=
  ⟨by decide, by decide,
    c10_train_slice [0, 1, 2, 3, 4, 5, 6, 7, 8, 9] 1 3 2 (fun k => k)
      [[0, 1], [1, 2]] [0, 1] (by decide) (by decide)⟩

/-- C9: the tokenizer lowercases every text before both fitting and
encoding, so encoding a text and encoding its lowercased form produce
the same integer sequence. -/
theorem c9_case_insensitive (vocab : List Nat) (t : List Nat) :
    textsToSequences vocab t = textsToSequences vocab (lowerText t) := by
  unfold textsToSequences
  rw [lowerText_lowerText]
